import Mathlib

/-!
Verification of the shared-moments photo-slideshow client.

Strings manipulated by the JavaScript/TypeScript source are embedded as
`List Char`; the JS string operations used by the source (`includes`,
`split`, `startsWith`, `match` with the concrete regular expressions of the
source, `takeWhile`-style truncation) are embedded as structurally
recursive Lean functions below.  Stateful services (`GoogleAuthService`,
`GoogleDriveService`) become explicit state records with pure transition
functions; `fetch` responses become `Option`/`Except` parameters.
-/

namespace SharedMoments

/-- Boolean test that `p` is a leading segment of `l` (JS `startsWith`,
also the single-position test used when scanning for a substring). -/
def lpre : List Char → List Char → Bool
  | [], _ => true
  | _ :: _, [] => false
  | a :: as, b :: bs => a == b && lpre as bs

/-- Scan `l` left to right for the first occurrence of `sep`; return the
text before the occurrence and the text after it.  This is the shape of
the first two fields of JS `l.split(sep)` and decides JS
`l.includes(sep)`.  All uses have `sep ≠ []`. -/
def splitFirst (sep : List Char) : List Char → Option (List Char × List Char)
  | [] => none
  | c :: rest =>
    if lpre sep (c :: rest) then some ([], (c :: rest).drop sep.length)
    else (splitFirst sep rest).map (fun pr => (c :: pr.1, pr.2))

/-- JS `l.includes(sep)`. -/
def containsSub (sep l : List Char) : Bool := (splitFirst sep l).isSome

theorem lpre_iff_take (p l : List Char) : lpre p l = true ↔ l.take p.length = p := by
  induction p generalizing l with
  | nil => simp [lpre]
  | cons a as ih =>
    cases l with
    | nil => simp [lpre]
    | cons b bs =>
      simp only [lpre, List.length_cons, List.take_succ_cons, Bool.and_eq_true, beq_iff_eq,
        List.cons.injEq, ih]
      constructor
      · rintro ⟨h1, h2⟩; exact ⟨h1.symm, h2⟩
      · rintro ⟨h1, h2⟩; exact ⟨h1.symm, h2⟩

theorem lpre_append_self (p r : List Char) : lpre p (p ++ r) = true := by
  rw [lpre_iff_take, List.take_left]

theorem lpre_head (c : Char) (s l : List Char) (h : lpre (c :: s) l = true) :
    l.head? = some c := by
  cases l with
  | nil => simp [lpre] at h
  | cons b bs =>
    simp only [lpre, Bool.and_eq_true, beq_iff_eq] at h
    simp [h.1]

theorem lpre_of_append (p x y : List Char) (h : lpre p (x ++ y) = true)
    (hlen : p.length ≤ x.length) : lpre p x = true := by
  rw [lpre_iff_take] at h ⊢
  rwa [List.take_append_eq_append_take, Nat.sub_eq_zero_of_le hlen, List.take_zero,
    List.append_nil] at h

theorem splitFirst_decomp (sep : List Char) (l pre post : List Char)
    (h : splitFirst sep l = some (pre, post)) : l = pre ++ sep ++ post := by
  induction l generalizing pre post with
  | nil => simp [splitFirst] at h
  | cons c rest ih =>
    by_cases hp : lpre sep (c :: rest) = true
    · rw [splitFirst, if_pos hp, Option.some.injEq, Prod.mk.injEq] at h
      obtain ⟨h1, h2⟩ := h
      have ht : (c :: rest).take sep.length = sep := (lpre_iff_take sep (c :: rest)).mp hp
      calc c :: rest = (c :: rest).take sep.length ++ (c :: rest).drop sep.length := by
            rw [List.take_append_drop]
        _ = pre ++ sep ++ post := by rw [ht, ← h1, ← h2, List.nil_append]
    · rw [splitFirst, if_neg hp] at h
      cases hr : splitFirst sep rest with
      | none => rw [hr] at h; simp at h
      | some pr =>
        rw [hr, Option.map_some', Option.some.injEq, Prod.mk.injEq] at h
        obtain ⟨h1, h2⟩ := h
        have := ih pr.1 pr.2 (by rw [hr])
        rw [← h1, ← h2, List.cons_append, List.cons_append, ← this]

theorem splitFirst_eq_none_iff (sep l : List Char) (hsep : sep ≠ []) :
    splitFirst sep l = none ↔ ∀ i, lpre sep (l.drop i) = false := by
  induction l with
  | nil =>
    simp only [splitFirst, List.drop_nil, true_iff]
    intro i
    cases sep with
    | nil => exact absurd rfl hsep
    | cons a as => simp [lpre]
  | cons c rest ih =>
    by_cases hp : lpre sep (c :: rest) = true
    · simp only [splitFirst, if_pos hp]
      constructor
      · intro h; exact absurd h (by simp)
      · intro h
        have := h 0
        simp only [List.drop_zero] at this
        rw [hp] at this; exact absurd this (by simp)
    · simp only [splitFirst, if_neg hp]
      constructor
      · intro h i
        have hrest : splitFirst sep rest = none := by
          cases hr : splitFirst sep rest with
          | none => rfl
          | some pr => rw [hr] at h; simp at h
        cases i with
        | zero => simpa using Bool.eq_false_iff.mpr hp
        | succ j => exact (ih.mp hrest) j
      · intro h
        have hrest : splitFirst sep rest = none :=
          ih.mpr (fun j => h (j + 1))
        rw [hrest]; rfl

theorem splitFirst_append_left (sep a b : List Char)
    (h : ∀ i, i < a.length → lpre sep ((a ++ b).drop i) = false) :
    splitFirst sep (a ++ b) = (splitFirst sep b).map (fun pr => (a ++ pr.1, pr.2)) := by
  induction a with
  | nil =>
    simp only [List.nil_append]
    cases splitFirst sep b with
    | none => rfl
    | some pr => rfl
  | cons c a' ih =>
    have h0 : lpre sep (c :: (a' ++ b)) = false := by
      have := h 0 (by simp)
      simpa using this
    rw [List.cons_append, splitFirst, if_neg (by rw [h0]; exact Bool.false_ne_true),
      ih (fun i hi => by simpa using h (i + 1) (by simpa using Nat.succ_lt_succ hi))]
    cases splitFirst sep b with
    | none => rfl
    | some pr => rfl

theorem lpre_drop_append_eq_false (c0 : Char) (s a b : List Char) (hc : c0 ∉ a) :
    ∀ i, i < a.length → lpre (c0 :: s) ((a ++ b).drop i) = false := by
  intro i hi
  have hdrop : (a ++ b).drop i = a.drop i ++ b :=
    List.drop_append_of_le_length (Nat.le_of_lt hi)
  by_contra hfalse
  have htrue : lpre (c0 :: s) ((a ++ b).drop i) = true := by
    cases hx : lpre (c0 :: s) ((a ++ b).drop i) with
    | false => exact absurd hx hfalse
    | true => rfl
  have hhead := lpre_head c0 s _ htrue
  rw [hdrop] at hhead
  have hlen : i < a.length := hi
  have hne : a.drop i ≠ [] := by
    intro hnil
    have := List.drop_eq_nil_iff.mp hnil
    omega
  cases hd : a.drop i with
  | nil => exact hne hd
  | cons x xs =>
    rw [hd] at hhead
    simp only [List.cons_append, List.head?_cons, Option.some.injEq] at hhead
    have hx : x ∈ a := by
      have : x ∈ a.drop i := by rw [hd]; exact List.mem_cons_self x xs
      exact List.mem_of_mem_drop this
    rw [← hhead] at hc
    exact hc hx

theorem takeWhile_neq_of_not_mem (q : Char) (a : List Char) (h : q ∉ a) :
    a.takeWhile (fun c => c != q) = a := by
  induction a with
  | nil => rfl
  | cons x xs ih =>
    have hx : x ≠ q := fun he => h (he ▸ List.mem_cons_self x xs)
    rw [List.takeWhile_cons, if_pos (by simp [hx]), ih (fun hm => h (List.mem_cons_of_mem x hm))]

theorem takeWhile_neq_append (q : Char) (a b : List Char) (h : q ∉ a) :
    (a ++ q :: b).takeWhile (fun c => c != q) = a := by
  induction a with
  | nil => simp [List.takeWhile_cons]
  | cons x xs ih =>
    have hx : x ≠ q := fun he => h (he ▸ List.mem_cons_self x xs)
    rw [List.cons_append, List.takeWhile_cons, if_pos (by simp [hx]),
      ih (fun hm => h (List.mem_cons_of_mem x hm))]

/-!
## Source embedding: Drive folder-id parsing

`src/App.tsx` (`loadPhotosFromDrive`) resolves the root folder id with the
regular expression `/\/folders\/([^/?]+)/` over the stored URL.
`GoogleDriveService.listPhotosInFolder` instead accepts a bare id or a
full URL and uses `folderId.split('folders/')[1].split('?')[0]` when the
argument `includes('folders/')`.
-/

/-- The pattern of the `listPhotosInFolder` argument check: `'folders/'`. -/
def foldersPat : List Char := "folders/".toList

/-- The literal part of the root-URL regular expression: `'/folders/'`. -/
def slashFoldersPat : List Char := "/folders/".toList

/-- Embedding of `savedUrl.match(/\/folders\/([^/?]+)/)`, returning the
first capture group: scan left to right; at each position require the
literal `/folders/` followed by at least one character that is neither
`/` nor `?`; the capture is the maximal such run. -/
def extractRootId : List Char → Option (List Char)
  | [] => none
  | c :: rest =>
    if lpre slashFoldersPat (c :: rest) then
      let cap := ((c :: rest).drop slashFoldersPat.length).takeWhile
        (fun ch => ch != '/' && ch != '?')
      if cap.isEmpty then extractRootId rest else some cap
    else extractRootId rest

/-- Embedding of the argument normalisation in `listPhotosInFolder`
(`src/unnamed/part_001` lines 728-731):
`folderId.includes('folders/') ? folderId.split('folders/')[1].split('?')[0] : folderId`.
`split('folders/')[1]` is the segment strictly between the first and the
second occurrence of `folders/` (the whole remainder when there is no
second occurrence), and `split('?')[0]` truncates at the first `?`. -/
def resolveFolderArg (l : List Char) : List Char :=
  match splitFirst foldersPat l with
  | none => l
  | some pr =>
    let seg := match splitFirst foldersPat pr.2 with
      | none => pr.2
      | some pr2 => pr2.1
    seg.takeWhile (fun ch => ch != '?')

theorem containsSub_false_cons (sep c rest) (h : containsSub sep (c :: rest) = false) :
    lpre sep (c :: rest) = false ∧ containsSub sep rest = false := by
  by_cases hp : lpre sep (c :: rest) = true
  · rw [containsSub, splitFirst, if_pos hp] at h
    simp at h
  · refine ⟨Bool.eq_false_iff.mpr hp, ?_⟩
    rw [containsSub, splitFirst, if_neg hp] at h
    cases hr : splitFirst sep rest with
    | none => rw [containsSub, hr]; rfl
    | some pr => rw [hr] at h; simp at h

/-- If the URL has no `/folders/` substring then the regular expression
cannot match. -/
theorem extractRootId_eq_none (url : List Char)
    (h : containsSub slashFoldersPat url = false) : extractRootId url = none := by
  induction url with
  | nil => rfl
  | cons c rest ih =>
    obtain ⟨h1, h2⟩ := containsSub_false_cons _ c rest h
    rw [extractRootId, if_neg (by rw [h1]; exact Bool.false_ne_true)]
    exact ih h2

/-!
## Source embedding: Drive listing and photo records

`DrivePhoto` is the interface of `src/unnamed/part_001` lines 680-687;
`DriveFile` is the shape of a raw entry of the listing endpoint response
(`files(id,name,mimeType,thumbnailLink,webContentLink,size)`).
-/

structure DriveFile where
  id : String
  name : String
  mimeType : String
  webContentLink : Option String
  size : String
deriving DecidableEq

structure DrivePhoto where
  id : String
  name : String
  mimeType : String
  thumbnailLink : String
  webContentLink : Option String
  size : String
deriving DecidableEq

/-- The templated thumbnail endpoint of `listPhotosInFolder` line 750:
`https://drive.google.com/thumbnail?id=${file.id}&sz=w800`. -/
def thumbnailUrlOf (id : String) : String :=
  "https://drive.google.com/thumbnail?id=" ++ id ++ "&sz=w800"

/-- `file.mimeType.startsWith('image/')` (line 743). -/
def isImageMime (m : String) : Bool := lpre "image/".toList m.toList

/-- The per-entry mapping of `listPhotosInFolder` lines 748-769.  The
`webContentLink` branch reflects the JS conditional
`file.webContentLink ? `...&access_token=...` : null` (the empty string is
falsy in JS). -/
def photoOfFile (accessToken : String) (f : DriveFile) : DrivePhoto :=
  { id := f.id
    name := f.name
    mimeType := f.mimeType
    thumbnailLink := thumbnailUrlOf f.id
    webContentLink :=
      match f.webContentLink with
      | some w => if w ≠ "" then some (w ++ "&access_token=" ++ accessToken) else none
      | none => none
    size := f.size }

/-- The pure response-processing part of `listPhotosInFolder` (lines
741-771): keep entries whose mime type starts with `image/` and derive
the photo records. -/
def listPhotosPure (accessToken : String) (files : List DriveFile) : List DrivePhoto :=
  (files.filter (fun f => isImageMime f.mimeType)).map (photoOfFile accessToken)

/-- String-level wrapper of `resolveFolderArg`: the folder id actually
used in the listing query of `listPhotosInFolder` (lines 729-734). -/
def resolveFolderArgS (folderId : String) : String :=
  String.mk (resolveFolderArg folderId.toList)

/-- The `q` parameter built by `listPhotosInFolder` line 734. -/
def listingQuery (folderId : String) : String :=
  "'" ++ resolveFolderArgS folderId ++ "' in parents and trashed=false"

/-- Whole `listPhotosInFolder`: normalise the folder argument, issue the
listing request (`respond` abstracts `makeDriveRequest`: `.error` is a
thrown `Google Drive API error`, re-thrown by the catch at line 773-776),
filter and map the entries. -/
def listPhotosInFolder (accessToken : String) (folderId : String)
    (respond : String → Except Unit (List DriveFile)) : Except Unit (List DrivePhoto) :=
  (respond (listingQuery folderId)).map (listPhotosPure accessToken)

/-!
## Source embedding: aggregation (`loadPhotosFromDrive`, `src/App.tsx` 142-196)
-/

/-- JS `Array.prototype.filter` with an index-aware callback: the
traversal of `allPhotos.filter((photo, index, self) => ...)` where the
callback receives the running index. -/
def filterWithIndexAux (pred : Nat → DrivePhoto → Bool) : Nat → List DrivePhoto → List DrivePhoto
  | _, [] => []
  | i, p :: rest =>
    if pred i p then p :: filterWithIndexAux pred (i + 1) rest
    else filterWithIndexAux pred (i + 1) rest

/-- Lines 183-185: `allPhotos.filter((photo, index, self) => index ===
self.findIndex(p => p.id === photo.id))` — keep an element exactly when
its index is the first index carrying its id. -/
def dedupById (l : List DrivePhoto) : List DrivePhoto :=
  filterWithIndexAux (fun i p => l.findIdx (fun q => q.id == p.id) == i) 0 l

/-- Reference form of first-occurrence deduplication, used to reason
about `dedupById`: keep a photo unless its id was already seen. -/
def dedupFirstSeen (seen : List String) : List DrivePhoto → List DrivePhoto
  | [] => []
  | p :: rest =>
    if p.id ∈ seen then dedupFirstSeen seen rest
    else p :: dedupFirstSeen (p.id :: seen) rest

theorem findIdx_append_cons_eq_iff (pr : DrivePhoto → Bool) (acc : List DrivePhoto)
    (p : DrivePhoto) (t : List DrivePhoto) (hp : pr p = true) :
    (List.findIdx pr (acc ++ p :: t) = acc.length) ↔ ∀ q ∈ acc, pr q = false := by
  induction acc with
  | nil => simp [List.findIdx_cons, hp]
  | cons q acc' ih =>
    rw [List.cons_append, List.findIdx_cons]
    cases hq : pr q with
    | true =>
      simp only [hq, cond_true, List.length_cons, List.mem_cons]
      constructor
      · intro h; exact absurd h (by omega)
      · intro h
        have hqf := h q (Or.inl rfl)
        rw [hqf] at hq
        exact Bool.noConfusion hq
    | false =>
      simp only [hq, cond_false, List.length_cons, Nat.add_right_cancel_iff, ih, List.mem_cons]
      constructor
      · intro h r hr
        cases hr with
        | inl he => rw [he]; exact hq
        | inr hm => exact h r hm
      · intro h r hr; exact h r (Or.inr hr)

theorem filterWithIndexAux_eq_dedupFirstSeen (l : List DrivePhoto) :
    ∀ rest acc seen, l = acc ++ rest →
    (∀ s, s ∈ seen ↔ s ∈ acc.map (fun p => p.id)) →
    filterWithIndexAux (fun i p => l.findIdx (fun q => q.id == p.id) == i) acc.length rest =
      dedupFirstSeen seen rest := by
  intro rest
  induction rest with
  | nil => intro acc seen _ _; rfl
  | cons p rest' ih =>
    intro acc seen hl hseen
    have hpp : (fun q => q.id == p.id) p = true := by simp
    have hiff := findIdx_append_cons_eq_iff (fun q => q.id == p.id) acc p rest' hpp
    rw [filterWithIndexAux, dedupFirstSeen]
    by_cases hmem : p.id ∈ seen
    · have hid : p.id ∈ acc.map (fun q => q.id) := (hseen p.id).mp hmem
      obtain ⟨q, hq, hqid⟩ := List.mem_map.mp hid
      have hcond : (List.findIdx (fun q => q.id == p.id) l = acc.length) = False := by
        simp only [eq_iff_iff, iff_false]
        intro hfi
        have h2 : (q.id == p.id) = false := (hiff.mp (hl ▸ hfi)) q hq
        rw [hqid] at h2
        simp at h2
      rw [if_neg (by simp only [beq_iff_eq]; rw [hcond]; exact id), if_pos hmem]
      have hl' : l = (acc ++ [p]) ++ rest' := by rw [hl, List.append_assoc]; rfl
      have hseen' : ∀ s, s ∈ seen ↔ s ∈ (acc ++ [p]).map (fun q => q.id) := by
        intro s
        rw [List.map_append, List.mem_append]
        constructor
        · intro hs; exact Or.inl ((hseen s).mp hs)
        · intro hs
          cases hs with
          | inl h1 => exact (hseen s).mpr h1
          | inr h2 =>
            simp only [List.map_cons, List.map_nil, List.mem_singleton] at h2
            rw [h2]; exact hmem
      have := ih (acc ++ [p]) seen hl' hseen'
      simpa [List.length_append] using this
    · have hcond : List.findIdx (fun q => q.id == p.id) l = acc.length := by
        rw [hl]
        apply hiff.mpr
        intro q hq
        have : q.id ≠ p.id := by
          intro he
          exact hmem ((hseen p.id).mpr (List.mem_map.mpr ⟨q, hq, he⟩))
        simp [this]
      rw [if_pos (by simp [hcond]), if_neg hmem]
      have hl' : l = (acc ++ [p]) ++ rest' := by rw [hl, List.append_assoc]; rfl
      have hseen' : ∀ s, s ∈ p.id :: seen ↔ s ∈ (acc ++ [p]).map (fun q => q.id) := by
        intro s
        rw [List.map_append, List.mem_append, List.mem_cons]
        constructor
        · intro hs
          cases hs with
          | inl h1 => exact Or.inr (by simp [h1])
          | inr h2 => exact Or.inl ((hseen s).mp h2)
        · intro hs
          cases hs with
          | inl h1 => exact Or.inr ((hseen s).mpr h1)
          | inr h2 =>
            simp only [List.map_cons, List.map_nil, List.mem_singleton] at h2
            exact Or.inl h2
      have := ih (acc ++ [p]) (p.id :: seen) hl' hseen'
      simpa [List.length_append] using this

theorem dedupById_eq_dedupFirstSeen (l : List DrivePhoto) :
    dedupById l = dedupFirstSeen [] l := by
  have := filterWithIndexAux_eq_dedupFirstSeen l l [] [] rfl (by simp)
  simpa [dedupById] using this

theorem dedupFirstSeen_sublist (seen : List String) (l : List DrivePhoto) :
    (dedupFirstSeen seen l).Sublist l := by
  induction l generalizing seen with
  | nil => exact List.Sublist.refl []
  | cons p rest ih =>
    rw [dedupFirstSeen]
    by_cases hm : p.id ∈ seen
    · rw [if_pos hm]
      exact List.Sublist.cons p (ih seen)
    · rw [if_neg hm]
      exact List.Sublist.cons₂ p (ih (p.id :: seen))

theorem dedupFirstSeen_id_not_seen (seen : List String) (l : List DrivePhoto) :
    ∀ p ∈ dedupFirstSeen seen l, p.id ∉ seen := by
  induction l generalizing seen with
  | nil => intro p hp; exact absurd hp (by simp [dedupFirstSeen])
  | cons q rest ih =>
    intro p hp
    rw [dedupFirstSeen] at hp
    by_cases hm : q.id ∈ seen
    · rw [if_pos hm] at hp
      exact ih seen p hp
    · rw [if_neg hm] at hp
      cases List.mem_cons.mp hp with
      | inl he => rw [he]; exact hm
      | inr hr =>
        have := ih (q.id :: seen) p hr
        intro hs
        exact this (List.mem_cons_of_mem _ hs)

theorem dedupFirstSeen_countP (seen : List String) (l : List DrivePhoto) (s : String) :
    (dedupFirstSeen seen l).countP (fun p => p.id == s) =
      if s ∈ seen then 0 else if s ∈ l.map (fun p => p.id) then 1 else 0 := by
  induction l generalizing seen with
  | nil => simp [dedupFirstSeen]
  | cons q rest ih =>
    rw [dedupFirstSeen]
    by_cases hm : q.id ∈ seen
    · rw [if_pos hm, ih seen, List.map_cons]
      by_cases hs : s ∈ seen
      · simp [hs]
      · have hne : ¬s = q.id := fun he => hs (he ▸ hm)
        simp [hs, List.mem_cons, hne]
    · rw [if_neg hm, List.countP_cons, ih (q.id :: seen), List.map_cons]
      by_cases hqs : s = q.id
      · subst hqs
        simp [hm, List.mem_cons]
      · have hqs' : ¬q.id = s := fun he => hqs he.symm
        by_cases hs : s ∈ seen
        · simp [hs, List.mem_cons, hqs, hqs']
        · simp [hs, List.mem_cons, hqs, hqs']

theorem dedupFirstSeen_find? (seen : List String) (l : List DrivePhoto) :
    ∀ p ∈ dedupFirstSeen seen l, l.find? (fun q => q.id == p.id) = some p := by
  induction l generalizing seen with
  | nil => intro p hp; exact absurd hp (by simp [dedupFirstSeen])
  | cons q rest ih =>
    intro p hp
    rw [dedupFirstSeen] at hp
    by_cases hm : q.id ∈ seen
    · rw [if_pos hm] at hp
      have hpid : p.id ∉ seen := dedupFirstSeen_id_not_seen seen rest p hp
      have hne : (q.id == p.id) = false := by
        simp only [beq_eq_false_iff_ne, ne_eq]
        intro he
        exact hpid (he ▸ hm)
      rw [List.find?_cons, hne]
      exact ih seen p hp
    · rw [if_neg hm] at hp
      cases List.mem_cons.mp hp with
      | inl he =>
        rw [he, List.find?_cons]
        simp
      | inr hr =>
        have hpid : p.id ∉ q.id :: seen := dedupFirstSeen_id_not_seen _ rest p hr
        have hne : (q.id == p.id) = false := by
          simp only [beq_eq_false_iff_ne, ne_eq]
          intro he
          exact hpid (he ▸ List.mem_cons_self q.id seen)
        rw [List.find?_cons, hne]
        exact ih (q.id :: seen) p hr

/-- String-level root-id extraction, `savedUrl.match(/\/folders\/([^/?]+)/)`
with capture group 1 (`src/App.tsx` lines 161-167). -/
def extractRootIdS (url : String) : Option String :=
  (extractRootId url.toList).map (fun cs => String.mk cs)

/-- Result of one `loadPhotosFromDrive` pass, as observed through the
state it sets: `photoError` for the two early returns, otherwise the
deduplicated `drivePhotos` list.  The per-folder `try/catch` (lines
171-180) swallows individual listing failures, so a folder failure never
produces an error result. -/
inductive LoadResult where
  | notConfigured
  | invalidUrl
  | photos (l : List DrivePhoto)
deriving DecidableEq

/-- The root sentinel substitution of line 173:
`folderId === 'root' ? rootFolderId : folderId`. -/
def resolveId (rootFolderId folderId : String) : String :=
  if folderId == "root" then rootFolderId else folderId

/-- The contribution of one selected folder to the combined sequence: its
listing result on success, nothing when its listing fails (per-folder
catch, lines 177-179). -/
def perFolderList (rootFolderId : String) (fetch : String → Except Unit (List DrivePhoto))
    (folderId : String) : List DrivePhoto :=
  match fetch (resolveId rootFolderId folderId) with
  | .ok photos => photos
  | .error _ => []

/-- Embedding of `loadPhotosFromDrive` (`src/App.tsx` lines 142-196).
`savedUrl` is `localStorage['shared_moments_folder_url']`,
`selectedFolders` the parsed `localStorage['selected_folders']`
(defaulting to `['root']`), and `fetch` abstracts
`GoogleDriveService.listPhotosInFolder` for this pass.  Returns the
result together with the trace of folder ids passed to the listing
service, in call order. -/
def loadPhotosFromDrive (savedUrl : Option String) (selectedFolders : Option (List String))
    (fetch : String → Except Unit (List DrivePhoto)) : LoadResult × List String :=
  match savedUrl with
  | none => (.notConfigured, [])
  | some url =>
    let folderIds := selectedFolders.getD ["root"]
    match extractRootIdS url with
    | none => (.invalidUrl, [])
    | some rootFolderId =>
      let step := fun (acc : List DrivePhoto × List String) (folderId : String) =>
        let actualFolderId := resolveId rootFolderId folderId
        match fetch actualFolderId with
        | .ok photos => (acc.1 ++ photos, acc.2 ++ [actualFolderId])
        | .error _ => (acc.1, acc.2 ++ [actualFolderId])
      let r := folderIds.foldl step ([], [])
      (.photos (dedupById r.1), r.2)

theorem loadPhotos_foldl (rootFolderId : String)
    (fetch : String → Except Unit (List DrivePhoto)) (ids : List String) :
    ∀ acc : List DrivePhoto × List String,
    ids.foldl (fun acc folderId =>
        let actualFolderId := resolveId rootFolderId folderId
        match fetch actualFolderId with
        | .ok photos => (acc.1 ++ photos, acc.2 ++ [actualFolderId])
        | .error _ => (acc.1, acc.2 ++ [actualFolderId])) acc =
      (acc.1 ++ (ids.map (perFolderList rootFolderId fetch)).flatten,
       acc.2 ++ ids.map (resolveId rootFolderId)) := by
  induction ids with
  | nil => intro acc; simp
  | cons fid rest ih =>
    intro acc
    rw [List.foldl_cons, List.map_cons, List.map_cons, List.flatten_cons]
    cases hf : fetch (resolveId rootFolderId fid) with
    | ok photos =>
      simp only [hf]
      rw [ih (acc.1 ++ photos, acc.2 ++ [resolveId rootFolderId fid])]
      simp [perFolderList, hf, List.append_assoc]
    | error e =>
      simp only [hf]
      rw [ih (acc.1, acc.2 ++ [resolveId rootFolderId fid])]
      simp [perFolderList, hf, List.append_assoc]

/-- Whenever the stored URL resolves, one aggregation pass returns the
deduplicated concatenation of the per-folder contributions, and calls the
listing service once per selected folder, in stored order. -/
theorem loadPhotos_spec (url : String) (ids : List String) (rootFolderId : String)
    (fetch : String → Except Unit (List DrivePhoto))
    (hroot : extractRootIdS url = some rootFolderId) :
    loadPhotosFromDrive (some url) (some ids) fetch =
      (.photos (dedupById ((ids.map (perFolderList rootFolderId fetch)).flatten)),
       ids.map (resolveId rootFolderId)) := by
  rw [loadPhotosFromDrive]
  simp only [Option.getD_some, hroot]
  rw [loadPhotos_foldl rootFolderId fetch ids ([], [])]
  simp

/-- The concatenation of the per-folder contributions, folders in stored
order, each folder's photos in arrival order. -/
def aggregatedConcat (rootFolderId : String) (fetch : String → Except Unit (List DrivePhoto))
    (ids : List String) : List DrivePhoto :=
  (ids.map (perFolderList rootFolderId fetch)).flatten

/-- Claim C1: for every stored folder selection, the aggregated photo
sequence produced by `loadPhotosFromDrive` equals the concatenation of
the per-folder listing results (folders in stored order, photos in
arrival order) with later duplicates removed by id: the output is a
subsequence of the concatenation, every id occurring in the concatenation
occurs exactly once in the output, each retained photo is the first
element of the concatenation carrying its id, and the output contains no
other entries. -/
theorem claim_C1 (url : String) (ids : List String) (rootFolderId : String)
    (fetch : String → Except Unit (List DrivePhoto))
    (hroot : extractRootIdS url = some rootFolderId)
    (hok : ∀ fid ∈ ids, ∃ l, fetch (resolveId rootFolderId fid) = .ok l) :
    (loadPhotosFromDrive (some url) (some ids) fetch).1 =
      .photos (dedupById (aggregatedConcat rootFolderId fetch ids)) ∧
    (dedupById (aggregatedConcat rootFolderId fetch ids)).Sublist
      (aggregatedConcat rootFolderId fetch ids) ∧
    (∀ s, s ∈ (aggregatedConcat rootFolderId fetch ids).map (fun p => p.id) →
      (dedupById (aggregatedConcat rootFolderId fetch ids)).countP (fun p => p.id == s) = 1) ∧
    (∀ p ∈ dedupById (aggregatedConcat rootFolderId fetch ids),
      (aggregatedConcat rootFolderId fetch ids).find? (fun q => q.id == p.id) = some p) := by
  refine ⟨?_, ?_, ?_, ?_⟩
  · rw [loadPhotos_spec url ids rootFolderId fetch hroot]; rfl
  · rw [dedupById_eq_dedupFirstSeen]
    exact dedupFirstSeen_sublist [] _
  · intro s hs
    rw [dedupById_eq_dedupFirstSeen, dedupFirstSeen_countP]
    simp [hs]
  · intro p hp
    rw [dedupById_eq_dedupFirstSeen] at hp
    exact dedupFirstSeen_find? [] _ p hp

/-- Three sample photos for concrete instantiations: `wA` and `wA2` share
the id `A` (one photo reachable from two folders), `wB` is distinct. -/
def wA : DrivePhoto := ⟨"A", "a.jpg", "image/jpeg", "tA", none, "10"⟩

def wB : DrivePhoto := ⟨"B", "b.jpg", "image/png", "tB", none, "20"⟩

def wA2 : DrivePhoto := ⟨"A", "a-copy.jpg", "image/png", "tA2", none, "30"⟩

/-- Sample listing service: the resolved root folder and `sub1` succeed
(the photo with id `A` is returned by both), everything else fails. -/
def wFetch : String → Except Unit (List DrivePhoto) := fun s =>
  if s == "ROOT1" then .ok [wA, wB]
  else if s == "sub1" then .ok [wA2]
  else .error ()

/-- Sample stored URL whose root id resolves to `ROOT1`. -/
def wUrl : String := "https://drive.example.com/drive/folders/ROOT1?usp=sharing"

theorem claim_C1_witness :
    extractRootIdS wUrl = some "ROOT1" ∧
    (∀ fid ∈ ["root", "sub1"], ∃ l, wFetch (resolveId "ROOT1" fid) = .ok l) ∧
    (loadPhotosFromDrive (some wUrl) (some ["root", "sub1"]) wFetch).1 =
      .photos (dedupById (aggregatedConcat "ROOT1" wFetch ["root", "sub1"])) ∧
    dedupById (aggregatedConcat "ROOT1" wFetch ["root", "sub1"]) = [wA, wB] ∧
    (dedupById (aggregatedConcat "ROOT1" wFetch ["root", "sub1"])).countP
      (fun p => p.id == "A") = 1 := by
  have hroot : extractRootIdS wUrl = some "ROOT1" := by decide
  have hok : ∀ fid ∈ ["root", "sub1"], ∃ l, wFetch (resolveId "ROOT1" fid) = .ok l := by
    intro fid hfid
    cases hfid with
    | head => exact ⟨[wA, wB], by rfl⟩
    | tail _ h2 =>
      cases h2 with
      | head => exact ⟨[wA2], by rfl⟩
      | tail _ h3 => exact absurd h3 (List.not_mem_nil fid)
  refine ⟨hroot, hok, (claim_C1 wUrl ["root", "sub1"] "ROOT1" wFetch hroot hok).1, by decide,
    by decide⟩

/-- Claim C2: the root id is the path segment after `/folders/` ending at
the next `/` or `?` — on the stored URL
`https://drive.example.com/drive/folders/XYZ123?usp=sharing` it is
`XYZ123` — and a stored URL with no `/folders/` substring makes the
aggregation fail with the invalid-URL error without any listing call. -/
theorem claim_C2 :
    extractRootIdS "https://drive.example.com/drive/folders/XYZ123?usp=sharing" =
      some "XYZ123" ∧
    ∀ (url : String) (sel : Option (List String))
      (fetch : String → Except Unit (List DrivePhoto)),
      containsSub slashFoldersPat url.toList = false →
      loadPhotosFromDrive (some url) sel fetch = (.invalidUrl, []) := by
  constructor
  · decide
  · intro url sel fetch h
    have hnone : extractRootId url.data = none := extractRootId_eq_none url.toList h
    rw [loadPhotosFromDrive]
    simp [extractRootIdS, hnone]

theorem claim_C2_witness :
    containsSub slashFoldersPat ("https://drive.example.com/drive/").toList = false ∧
    loadPhotosFromDrive (some "https://drive.example.com/drive/") none wFetch =
      (.invalidUrl, []) := by
  have h : containsSub slashFoldersPat ("https://drive.example.com/drive/").toList = false := by
    decide
  exact ⟨h, claim_C2.2 "https://drive.example.com/drive/" none wFetch h⟩

/-- Claim C4: when the listing of one selected folder fails and the other
folders' listings succeed, the aggregated result is the deduplicated
concatenation of the successful folders' contributions only (the failed
folder contributes nothing, each successful folder contributes exactly
its listing result), and the pass still returns a photo result rather
than raising the per-folder failure as a hard failure. -/
theorem claim_C4 (url : String) (ids : List String) (rootFolderId : String)
    (fetch : String → Except Unit (List DrivePhoto)) (f : String)
    (hroot : extractRootIdS url = some rootFolderId) (hf : f ∈ ids)
    (hfail : fetch (resolveId rootFolderId f) = .error ())
    (hok : ∀ g ∈ ids, g ≠ f → ∃ l, fetch (resolveId rootFolderId g) = .ok l) :
    (loadPhotosFromDrive (some url) (some ids) fetch).1 =
      .photos (dedupById (aggregatedConcat rootFolderId fetch ids)) ∧
    perFolderList rootFolderId fetch f = [] ∧
    (∀ g ∈ ids, ∀ l, fetch (resolveId rootFolderId g) = .ok l →
      perFolderList rootFolderId fetch g = l) := by
  refine ⟨?_, ?_, ?_⟩
  · rw [loadPhotos_spec url ids rootFolderId fetch hroot]; rfl
  · rw [perFolderList, hfail]
  · intro g _ l hl
    rw [perFolderList, hl]

theorem claim_C4_witness :
    wFetch (resolveId "ROOT1" "sub2") = .error () ∧
    (loadPhotosFromDrive (some wUrl) (some ["root", "sub1", "sub2"]) wFetch).1 =
      .photos (dedupById (aggregatedConcat "ROOT1" wFetch ["root", "sub1", "sub2"])) ∧
    dedupById (aggregatedConcat "ROOT1" wFetch ["root", "sub1", "sub2"]) = [wA, wB] := by
  have hroot : extractRootIdS wUrl = some "ROOT1" := by decide
  have hfail : wFetch (resolveId "ROOT1" "sub2") = .error () := by rfl
  have hok : ∀ g ∈ ["root", "sub1", "sub2"], g ≠ "sub2" →
      ∃ l, wFetch (resolveId "ROOT1" g) = .ok l := by
    intro g hg hne
    cases hg with
    | head => exact ⟨[wA, wB], by rfl⟩
    | tail _ h2 =>
      cases h2 with
      | head => exact ⟨[wA2], by rfl⟩
      | tail _ h3 =>
        cases h3 with
        | head => exact absurd rfl hne
        | tail _ h4 => exact absurd h4 (List.not_mem_nil g)
  have hmain := claim_C4 wUrl ["root", "sub1", "sub2"] "ROOT1" wFetch "sub2" hroot
    (by simp) hfail hok
  exact ⟨hfail, hmain.1, by decide⟩

/-!
## Source embedding: `GoogleAuthService` (`src/unnamed/part_000`)

The service state together with the keys it owns in `localStorage`
(`google_auth_user`, `google_auth_token`, `temp_auth_code`,
`oauth_completion_time`) and the `GoogleDriveService` token it sets.  The
persisted user is stored as a typed record (in the source it is the JSON
serialisation of a flat record of strings, which round-trips); the
persisted completion time is stored parsed (the source stores the decimal
string and applies `parseInt`).  Timestamps are milliseconds as `Int`. -/

structure GoogleUser where
  id : String
  email : String
  name : String
  photo : Option String
deriving DecidableEq

structure AuthState where
  currentUser : Option GoogleUser
  accessToken : Option String
  driveToken : Option String
  storedUser : Option GoogleUser
  storedToken : Option String
  tempAuthCode : Option String
  oauthCompletionTime : Option Int
deriving DecidableEq

def emptyAuthState : AuthState := ⟨none, none, none, none, none, none, none⟩

/-- `isSignedIn` (lines 91-99): `!!this.currentUser`. -/
def isSignedIn (st : AuthState) : Bool := st.currentUser.isSome

/-- `getAccessToken` (lines 101-103). -/
def getAccessToken (st : AuthState) : Option String := st.accessToken

/-- `setAuthenticatedUser` (lines 106-117): set the in-memory session,
persist both keys, and hand the token to `GoogleDriveService` when it is
truthy (the empty string is falsy in JS). -/
def setAuthenticatedUser (st : AuthState) (user : GoogleUser) (token : String) : AuthState :=
  { st with
    currentUser := some user
    accessToken := some token
    storedUser := some user
    storedToken := some token
    driveToken := if token ≠ "" then some token else st.driveToken }

/-- `loadStoredAuth` (lines 120-143): adopt the persisted session when
both keys are present and truthy (an empty stored token is falsy in the
JS test `if (storedUser && storedToken)`). -/
def loadStoredAuth (st : AuthState) : AuthState :=
  match st.storedUser, st.storedToken with
  | some u, some tok =>
    if tok ≠ "" then
      { st with currentUser := some u, accessToken := some tok, driveToken := some tok }
    else st
  | some _, none => st
  | none, _ => st

/-- `clearStoredAuth` (lines 146-151). -/
def clearStoredAuth (st : AuthState) : AuthState :=
  { st with storedUser := none, storedToken := none, currentUser := none, accessToken := none }

/-- `signOut` (lines 73-85): clear the session keys and the pending
authorization-attempt keys.  The body is wrapped in `try/catch`, so the
embedding is a total function: `signOut` never throws to its caller. -/
def signOut (st : AuthState) : AuthState :=
  let st1 := clearStoredAuth st
  { st1 with tempAuthCode := none, oauthCompletionTime := none }

/-- A fresh process start with the given persisted store: in-memory
fields begin empty, then the constructor runs `loadStoredAuth`. -/
def freshLoad (persisted : AuthState) : AuthState :=
  loadStoredAuth { emptyAuthState with
    storedUser := persisted.storedUser
    storedToken := persisted.storedToken
    tempAuthCode := persisted.tempAuthCode
    oauthCompletionTime := persisted.oauthCompletionTime }

/-- The user-info endpoint response fields consumed by
`processAuthCode` (`id, email, name, picture`). -/
structure UserInfo where
  id : String
  email : String
  name : String
  picture : Option String
deriving DecidableEq

/-- `processAuthCode` (lines 177-248).  `creds` is the pair of
environment credentials (absence throws, caught by the surrounding
`try/catch`); `tokenResp` is the token-exchange response (`none` for a
non-success status, otherwise the `access_token` value); `userResp` is
the user-info response (`none` for a non-success status).  After a
successful exchange the in-memory access token is assigned (line 216)
before the profile fetch; `setAuthenticatedUser` runs only when the
profile fetch also succeeds.  All failures are logged and the function
returns normally. -/
def processAuthCode (st : AuthState) (creds : Option (String × String))
    (tokenResp : Option String) (userResp : Option UserInfo) : AuthState :=
  match creds with
  | none => st
  | some _ =>
    match tokenResp with
    | none => st
    | some tok =>
      let st1 := { st with accessToken := some tok }
      match userResp with
      | none => st1
      | some ui => setAuthenticatedUser st1 ⟨ui.id, ui.email, ui.name, ui.picture⟩ tok

/-- `checkForOAuthCompletion` (lines 154-174) run at startup with clock
value `now`: when both pending keys are present, exchange the code only
if it is younger than five minutes, and remove both keys in either
branch.  The first component is the code passed on to `processAuthCode`
(`none` when no exchange is attempted); the second is the state of the
two pending keys afterwards. -/
def checkForOAuthCompletion (tempAuthCode : Option String) (completionTime : Option Int)
    (now : Int) : Option String × (Option String × Option Int) :=
  match tempAuthCode, completionTime with
  | some code, some t =>
    if now - t < 5 * 60 * 1000 then (some code, (none, none))
    else (none, (none, none))
  | some code, none => (none, (some code, none))
  | none, t? => (none, (none, t?))

/-- Claim C3: a pending authorization attempt more than 300 seconds old
is never exchanged (301 seconds old is discarded, 299 seconds old is
processed), and whenever both pending records are present they are both
removed after the check, whether the attempt was processed or not. -/
theorem claim_C3 (code : String) (t now : Int) :
    (now - t > 300 * 1000 →
      (checkForOAuthCompletion (some code) (some t) now).1 = none) ∧
    (now - t < 300 * 1000 →
      (checkForOAuthCompletion (some code) (some t) now).1 = some code) ∧
    (checkForOAuthCompletion (some code) (some t) now).2 = (none, none) := by
  refine ⟨?_, ?_, ?_⟩
  · intro h
    rw [checkForOAuthCompletion, if_neg (by omega)]
  · intro h
    rw [checkForOAuthCompletion, if_pos (by omega)]
  · rw [checkForOAuthCompletion]
    by_cases h : now - t < 5 * 60 * 1000
    · rw [if_pos h]
    · rw [if_neg h]

theorem claim_C3_witness :
    ((301000 : Int) - 0 > 300 * 1000 ∧
      (checkForOAuthCompletion (some "code1") (some 0) 301000).1 = none) ∧
    ((299000 : Int) - 0 < 300 * 1000 ∧
      (checkForOAuthCompletion (some "code1") (some 0) 299000).1 = some "code1") ∧
    (checkForOAuthCompletion (some "code1") (some 0) 301000).2 = (none, none) := by
  refine ⟨⟨by decide, (claim_C3 "code1" 0 301000).1 (by decide)⟩,
    ⟨by decide, (claim_C3 "code1" 0 299000).2.1 (by decide)⟩,
    (claim_C3 "code1" 0 301000).2.2⟩

def wUser : GoogleUser := ⟨"u1", "u1@example.com", "User One", none⟩

/-- A signed-in state: in-memory session, Drive token and persisted
session all present, no pending attempt. -/
def wSt0 : AuthState :=
  { emptyAuthState with
    currentUser := some wUser
    accessToken := some "oldtoken"
    driveToken := some "oldtoken"
    storedUser := some wUser
    storedToken := some "oldtoken" }

/-- Counterexample to claim C5 as stated: with a signed-in prior state,
a successful token exchange followed by a failed profile fetch leaves no
new session, but the in-memory access token has already been overwritten
with the newly exchanged token (line 216 runs before the profile fetch),
so the prior authentication state is not unchanged. -/
theorem claim_C5_counterexample :
    (processAuthCode wSt0 (some ("cid", "secret")) (some "newtoken") none).accessToken ≠
      wSt0.accessToken ∧
    processAuthCode wSt0 (some ("cid", "secret")) (some "newtoken") none ≠ wSt0 := by
  decide

/-- Claim C5 as amended: when the token-exchange response or the profile
response has a non-success status, no session is created — the in-memory
current user, the persisted session and the Drive-service token are
unchanged, and nothing is thrown (the embedding is total).  If the token
exchange itself failed the state is completely unchanged; if it succeeded
and only the profile fetch failed, the sole change is that the in-memory
access token now holds the newly exchanged token. -/
theorem claim_C5 (st : AuthState) (c : String × String)
    (tokenResp : Option String) (userResp : Option UserInfo)
    (h : tokenResp = none ∨ userResp = none) :
    (processAuthCode st (some c) tokenResp userResp).currentUser = st.currentUser ∧
    (processAuthCode st (some c) tokenResp userResp).storedUser = st.storedUser ∧
    (processAuthCode st (some c) tokenResp userResp).storedToken = st.storedToken ∧
    (processAuthCode st (some c) tokenResp userResp).driveToken = st.driveToken ∧
    (tokenResp = none → processAuthCode st (some c) tokenResp userResp = st) ∧
    (∀ tok, tokenResp = some tok →
      processAuthCode st (some c) tokenResp userResp = { st with accessToken := some tok }) := by
  cases tokenResp with
  | none =>
    refine ⟨rfl, rfl, rfl, rfl, fun _ => rfl, ?_⟩
    intro tok htok
    exact absurd htok (by simp)
  | some tok =>
    have huser : userResp = none := by
      cases h with
      | inl h1 => exact absurd h1 (by simp)
      | inr h2 => exact h2
    subst huser
    refine ⟨rfl, rfl, rfl, rfl, ?_, ?_⟩
    · intro habs; exact absurd habs (by simp)
    · intro tok' htok
      cases htok
      rfl

theorem claim_C5_witness :
    ((some "newtoken" : Option String) = none ∨ (none : Option UserInfo) = none) ∧
    (processAuthCode wSt0 (some ("cid", "secret")) (some "newtoken") none).currentUser =
      wSt0.currentUser ∧
    (processAuthCode wSt0 (some ("cid", "secret")) (some "newtoken") none).storedToken =
      wSt0.storedToken ∧
    processAuthCode wSt0 (some ("cid", "secret")) (some "newtoken") none =
      { wSt0 with accessToken := some "newtoken" } := by
  have h := claim_C5 wSt0 ("cid", "secret") (some "newtoken") none (Or.inr rfl)
  exact ⟨Or.inr rfl, h.1, h.2.2.1, h.2.2.2.2.2 "newtoken" rfl⟩

/-- Counterexample to claim C6 as stated: `setAuthenticatedUser` with the
empty-string token persists both keys, but on a fresh load the stored
token is falsy in the JS test `if (storedUser && storedToken)`, so
nothing is restored: the reloaded current user is `none`, not a user with
the persisted fields. -/
theorem claim_C6_counterexample :
    (freshLoad (setAuthenticatedUser emptyAuthState wUser "")).currentUser = none ∧
    (freshLoad (setAuthenticatedUser emptyAuthState wUser "")).accessToken = none ∧
    (freshLoad (setAuthenticatedUser emptyAuthState wUser "")).currentUser ≠ some wUser := by
  decide

/-- Claim C6 as amended: for every session persisted via
`setAuthenticatedUser(user, token)` with a non-empty token, a session
restore on a fresh load yields a current user whose `id`, `email`,
`name` and `photo` fields equal those of the persisted user, and an
access token equal to the persisted token. -/
theorem claim_C6 (st : AuthState) (user : GoogleUser) (token : String) (h : token ≠ "") :
    (freshLoad (setAuthenticatedUser st user token)).currentUser = some user ∧
    (freshLoad (setAuthenticatedUser st user token)).accessToken = some token ∧
    (freshLoad (setAuthenticatedUser st user token)).currentUser.map GoogleUser.id =
      some user.id ∧
    (freshLoad (setAuthenticatedUser st user token)).currentUser.map GoogleUser.email =
      some user.email ∧
    (freshLoad (setAuthenticatedUser st user token)).currentUser.map GoogleUser.name =
      some user.name ∧
    (freshLoad (setAuthenticatedUser st user token)).currentUser.map GoogleUser.photo =
      some user.photo := by
  have hload : freshLoad (setAuthenticatedUser st user token) =
      { emptyAuthState with
        currentUser := some user
        accessToken := some token
        driveToken := some token
        storedUser := some user
        storedToken := some token
        tempAuthCode := st.tempAuthCode
        oauthCompletionTime := st.oauthCompletionTime } := by
    rw [freshLoad, setAuthenticatedUser, loadStoredAuth]
    simp [h, emptyAuthState]
  rw [hload]
  exact ⟨rfl, rfl, rfl, rfl, rfl, rfl⟩

theorem claim_C6_witness :
    ("tok123" : String) ≠ "" ∧
    (freshLoad (setAuthenticatedUser emptyAuthState wUser "tok123")).currentUser = some wUser ∧
    (freshLoad (setAuthenticatedUser emptyAuthState wUser "tok123")).accessToken =
      some "tok123" ∧
    (freshLoad (setAuthenticatedUser emptyAuthState wUser "tok123")).currentUser.map
      GoogleUser.email = some "u1@example.com" := by
  have h := claim_C6 emptyAuthState wUser "tok123" (by decide)
  exact ⟨by decide, h.1, h.2.1, h.2.2.2.1⟩

/-- Claim C7: after `signOut` the service reports signed-out and no
access token, all persisted session keys and pending attempt keys are
removed, and a fresh load restores nothing; the embedding is a total
function, matching the `try/catch` that keeps `signOut` from throwing. -/
theorem claim_C7 (st : AuthState) :
    isSignedIn (signOut st) = false ∧
    getAccessToken (signOut st) = none ∧
    (signOut st).storedUser = none ∧
    (signOut st).storedToken = none ∧
    (signOut st).tempAuthCode = none ∧
    (signOut st).oauthCompletionTime = none ∧
    (freshLoad (signOut st)).currentUser = none ∧
    (freshLoad (signOut st)).accessToken = none := by
  exact ⟨rfl, rfl, rfl, rfl, rfl, rfl, rfl, rfl⟩

/-!
## Source embedding: slideshow navigation (`src/App.tsx` lines 222-238)

JS numbers are embedded as `Int` for the index arithmetic, matching
`(prev + 1) % length` and `(prev - 1 + length) % length` together with
the `newIndex >= 0 && newIndex < displayPhotos.length` range check; `n`
is `displayPhotos.length` and `i` the previous index.
-/

def nextPhoto (n i : Nat) : Nat :=
  if 0 < n then
    if 0 ≤ ((i : Int) + 1) % (n : Int) ∧ ((i : Int) + 1) % (n : Int) < (n : Int)
    then (((i : Int) + 1) % (n : Int)).toNat else 0
  else i

def prevPhoto (n i : Nat) : Nat :=
  if 0 < n then
    if 0 ≤ ((i : Int) - 1 + (n : Int)) % (n : Int) ∧
        ((i : Int) - 1 + (n : Int)) % (n : Int) < (n : Int)
    then (((i : Int) - 1 + (n : Int)) % (n : Int)).toNat else 0
  else i

theorem nextPhoto_eq (n i : Nat) (hn : 0 < n) (hi : i < n) : nextPhoto n i = (i + 1) % n := by
  rcases Nat.lt_or_ge (i + 1) n with hlt | hge
  · have hint : ((i : Int) + 1) % (n : Int) = (i : Int) + 1 :=
      Int.emod_eq_of_lt (by omega) (by omega)
    rw [nextPhoto, if_pos hn, hint, if_pos ⟨by omega, by omega⟩, Nat.mod_eq_of_lt hlt]
    omega
  · have he : i + 1 = n := by omega
    have hint : ((i : Int) + 1) % (n : Int) = 0 := by
      rw [show (i : Int) + 1 = (n : Int) by omega]
      exact Int.emod_self
    rw [nextPhoto, if_pos hn, hint, if_pos ⟨by omega, by omega⟩, he, Nat.mod_self]
    rfl

theorem prevPhoto_eq (n i : Nat) (hn : 0 < n) (hi : i < n) :
    prevPhoto n i = (i + n - 1) % n := by
  rcases Nat.eq_zero_or_pos i with h0 | hpos
  · subst h0
    have hint : ((0 : Int) - 1 + (n : Int)) % (n : Int) = (0 : Int) - 1 + (n : Int) :=
      Int.emod_eq_of_lt (by omega) (by omega)
    rw [prevPhoto, if_pos hn]
    simp only [Nat.cast_zero] at hint ⊢
    rw [hint, if_pos ⟨by omega, by omega⟩, Nat.mod_eq_of_lt (by omega)]
    omega
  · have hadd : ((i : Int) - 1 + (n : Int)) % (n : Int) = ((i : Int) - 1) % (n : Int) := by
      have h := Int.add_mul_emod_self_left ((i : Int) - 1) (n : Int) 1
      rw [mul_one] at h
      exact h
    have hsmall : ((i : Int) - 1) % (n : Int) = (i : Int) - 1 :=
      Int.emod_eq_of_lt (by omega) (by omega)
    rw [prevPhoto, if_pos hn, hadd, hsmall, if_pos ⟨by omega, by omega⟩,
      show i + n - 1 = (i - 1) + n by omega, Nat.add_mod_right, Nat.mod_eq_of_lt (by omega)]
    omega

/-- Claim C9: with `n` displayed photos (`n > 0`) and current index
`i < n`, `nextPhoto` moves to `(i+1) mod n` and `prevPhoto` to
`(i-1+n) mod n`, both results lie in `[0, n)`, and `prevPhoto` undoes
`nextPhoto`. -/
theorem claim_C9 (n i : Nat) (hn : 0 < n) (hi : i < n) :
    nextPhoto n i = (i + 1) % n ∧
    prevPhoto n i = (i + n - 1) % n ∧
    nextPhoto n i < n ∧
    prevPhoto n i < n ∧
    prevPhoto n (nextPhoto n i) = i := by
  have hnext := nextPhoto_eq n i hn hi
  have hprev := prevPhoto_eq n i hn hi
  have hnlt : nextPhoto n i < n := by rw [hnext]; exact Nat.mod_lt _ hn
  have hplt : prevPhoto n i < n := by rw [hprev]; exact Nat.mod_lt _ hn
  refine ⟨hnext, hprev, hnlt, hplt, ?_⟩
  rw [prevPhoto_eq n (nextPhoto n i) hn hnlt, hnext]
  rcases Nat.lt_or_ge (i + 1) n with hlt | hge
  · rw [Nat.mod_eq_of_lt hlt, show i + 1 + n - 1 = i + n by omega, Nat.add_mod_right,
      Nat.mod_eq_of_lt hi]
  · have he : i + 1 = n := by omega
    rw [he, Nat.mod_self, Nat.zero_add, Nat.mod_eq_of_lt (by omega)]
    omega

theorem claim_C9_witness :
    0 < 5 ∧ 4 < 5 ∧
    nextPhoto 5 4 = 0 ∧ prevPhoto 5 0 = 4 ∧ prevPhoto 5 (nextPhoto 5 4) = 4 := by
  have h := claim_C9 5 4 (by decide) (by decide)
  exact ⟨by decide, by decide, by rw [h.1], by
    have h0 := claim_C9 5 0 (by decide) (by decide)
    rw [h0.2.1], h.2.2.2.2⟩

/-- Sample raw listing entries: an image entry and a non-image entry. -/
def wFileImg : DriveFile := ⟨"F1", "f1.png", "image/png", some "https://dl.example.com/f1", "11"⟩

def wFilePdf : DriveFile := ⟨"F2", "f2.pdf", "application/pdf", none, "22"⟩

/-- Claim C8: the preview URL of every qualifying entry is the templated
thumbnail endpoint applied to the entry's id alone — it does not embed
the bearer token — so two runs of `listPhotosInFolder` over the same
entries with different access tokens produce identical preview URLs. -/
theorem claim_C8 (files : List DriveFile) (t1 t2 : String) :
    (listPhotosPure t1 files).map (fun p => p.thumbnailLink) =
      (listPhotosPure t2 files).map (fun p => p.thumbnailLink) ∧
    (∀ p ∈ listPhotosPure t1 files, p.thumbnailLink = thumbnailUrlOf p.id) ∧
    (∀ (folderId : String) (respond : String → Except Unit (List DriveFile)),
      (listPhotosInFolder t1 folderId respond).map
          (fun l => l.map (fun p => p.thumbnailLink)) =
        (listPhotosInFolder t2 folderId respond).map
          (fun l => l.map (fun p => p.thumbnailLink))) := by
  have hmap : ∀ t : String, (listPhotosPure t files).map (fun p => p.thumbnailLink) =
      (files.filter (fun f => isImageMime f.mimeType)).map (fun f => thumbnailUrlOf f.id) := by
    intro t
    rw [listPhotosPure, List.map_map]
    rfl
  refine ⟨by rw [hmap t1, hmap t2], ?_, ?_⟩
  · intro p hp
    rw [listPhotosPure] at hp
    obtain ⟨f, _, hf⟩ := List.mem_map.mp hp
    rw [← hf]
    rfl
  · intro folderId respond
    rw [listPhotosInFolder, listPhotosInFolder]
    cases respond (listingQuery folderId) with
    | error e => rfl
    | ok files' =>
      simp only [Except.map]
      have h : ∀ t : String, (listPhotosPure t files').map (fun p => p.thumbnailLink) =
          (files'.filter (fun f => isImageMime f.mimeType)).map
            (fun f => thumbnailUrlOf f.id) := by
        intro t
        rw [listPhotosPure, List.map_map]
        rfl
      rw [Except.ok.injEq]
      rw [h t1, h t2]

theorem claim_C8_witness :
    ((listPhotosPure "tokenX" [wFileImg, wFilePdf]).map (fun p => p.thumbnailLink) =
      (listPhotosPure "tokenY" [wFileImg, wFilePdf]).map (fun p => p.thumbnailLink)) ∧
    (photoOfFile "tokenX" wFileImg).thumbnailLink =
      "https://drive.google.com/thumbnail?id=F1&sz=w800" := by
  have h := claim_C8 [wFileImg, wFilePdf] "tokenX" "tokenY"
  have hmem : photoOfFile "tokenX" wFileImg ∈ listPhotosPure "tokenX" [wFileImg, wFilePdf] := by
    decide
  have h2 := h.2.1 (photoOfFile "tokenX" wFileImg) hmem
  exact ⟨h.1, by rw [h2]; decide⟩

/-!
## Claim C10: folder-argument normalisation in `listPhotosInFolder`
-/

/-- The resolution rule as the claim words it: the portion after the
first occurrence of `folders/`, truncated at the first `?`. -/
def resolveFolderArgClaimed (l : List Char) : List Char :=
  match splitFirst foldersPat l with
  | none => l
  | some pr => pr.2.takeWhile (fun ch => ch != '?')

theorem splitFirst_sep_append (sep r : List Char) (hsep : sep ≠ []) :
    splitFirst sep (sep ++ r) = some ([], r) := by
  cases sep with
  | nil => exact absurd rfl hsep
  | cons c s =>
    rw [List.cons_append, splitFirst,
      if_pos (show lpre (c :: s) (c :: (s ++ r)) = true from lpre_append_self (c :: s) r)]
    simp [List.drop_left]

/-- The canonical Drive share-URL text before `folders/`. -/
def sharePre : List Char := "https://drive.google.com/drive/".toList

theorem splitFirst_none_of_contains_false (sep l : List Char)
    (h : containsSub sep l = false) : splitFirst sep l = none := by
  cases hs : splitFirst sep l with
  | none => rfl
  | some pr => rw [containsSub, hs] at h; simp at h

/-- Counterexample to claim C10 as stated: on the argument
`folders/afolders/b`, `split('folders/')[1]` is the segment between the
first and second occurrences of `folders/`, namely `a`, not the whole
portion after the first occurrence (`afolders/b`). -/
theorem claim_C10_counterexample :
    resolveFolderArg ("folders/afolders/b".toList) = "a".toList ∧
    resolveFolderArgClaimed ("folders/afolders/b".toList) = "afolders/b".toList ∧
    resolveFolderArg ("folders/afolders/b".toList) ≠
      resolveFolderArgClaimed ("folders/afolders/b".toList) := by
  decide

/-- Claim C10 as amended: when the argument contains `folders/` the id
used in the listing query is the segment strictly between the first
occurrence of `folders/` and the next one (the whole remainder when
there is no further occurrence), truncated at the first `?`; otherwise
the argument is used as-is.  Consequently, for every folder id containing
neither `folders/` nor `?`, the standard share URL
`https://drive.google.com/drive/folders/<id><suffix>` (suffix empty or
beginning with `?`) behaves identically to the bare id. -/
theorem claim_C10 (id suffix : List Char)
    (hid : containsSub foldersPat id = false)
    (hq : '?' ∉ id)
    (hsuffix : suffix = [] ∨ ∃ s', suffix = '?' :: s') :
    resolveFolderArg (sharePre ++ foldersPat ++ id ++ suffix) = id ∧
    resolveFolderArg id = id := by
  have hpatne : foldersPat ≠ [] := by decide
  have hnone : splitFirst foldersPat id = none := splitFirst_none_of_contains_false _ _ hid
  have hbare : resolveFolderArg id = id := by
    rw [resolveFolderArg, hnone]
  refine ⟨?_, hbare⟩
  have hpatcons : foldersPat = 'f' :: "olders/".toList := by decide
  have hfree : 'f' ∉ sharePre := by decide
  have hnopre : ∀ i, i < sharePre.length →
      lpre foldersPat ((sharePre ++ (foldersPat ++ (id ++ suffix))).drop i) = false := by
    rw [hpatcons]
    exact lpre_drop_append_eq_false 'f' ("olders/".toList) sharePre _ hfree
  have hsplit1 : splitFirst foldersPat (sharePre ++ (foldersPat ++ (id ++ suffix))) =
      some (sharePre, id ++ suffix) := by
    rw [splitFirst_append_left foldersPat sharePre _ hnopre,
      splitFirst_sep_append foldersPat (id ++ suffix) hpatne]
    simp
  have hmain : resolveFolderArg (sharePre ++ (foldersPat ++ (id ++ suffix))) =
      (match splitFirst foldersPat (id ++ suffix) with
        | none => id ++ suffix
        | some pr2 => pr2.1).takeWhile (fun ch => ch != '?') := by
    simp only [resolveFolderArg, hsplit1]
  rw [List.append_assoc, List.append_assoc, hmain]
  cases hsuffix with
  | inl hnil =>
    subst hnil
    rw [List.append_nil, hnone]
    exact takeWhile_neq_of_not_mem '?' id hq
  | inr hq' =>
    obtain ⟨s', hs'⟩ := hq'
    subst hs'
    cases hsp2 : splitFirst foldersPat (id ++ '?' :: s') with
    | none => exact takeWhile_neq_append '?' id s' hq
    | some pr2 =>
      obtain ⟨pre2, rest2⟩ := pr2
      have hdec := splitFirst_decomp foldersPat (id ++ '?' :: s') pre2 rest2 hsp2
      rcases Nat.lt_or_ge id.length pre2.length with hlong | hshort
      · have hpre2 : pre2 = id ++ '?' :: (s'.take (pre2.length - id.length - 1)) := by
          have htake : (id ++ '?' :: s').take pre2.length = pre2 := by
            rw [hdec, List.append_assoc, List.take_left]
          rw [List.take_append_eq_append_take, List.take_of_length_le (by omega)] at htake
          have hshape : ('?' :: s').take (pre2.length - id.length) =
              '?' :: s'.take (pre2.length - id.length - 1) := by
            rw [show pre2.length - id.length = (pre2.length - id.length - 1) + 1 by omega]
            rfl
          rw [hshape] at htake
          exact htake.symm
        show pre2.takeWhile (fun ch => ch != '?') = id
        rw [hpre2]
        exact takeWhile_neq_append '?' id _ hq
      · exfalso
        have hdrop : (id ++ '?' :: s').drop pre2.length = foldersPat ++ rest2 := by
          rw [hdec, List.append_assoc, List.drop_left]
        rw [List.drop_append_of_le_length hshort] at hdrop
        rcases Nat.lt_or_ge (id.drop pre2.length).length foldersPat.length with hm | hm
        · have hgetL : (foldersPat ++ rest2).get? (id.drop pre2.length).length =
              foldersPat.get? (id.drop pre2.length).length :=
            List.get?_append hm
          have hgetR : (id.drop pre2.length ++ '?' :: s').get? (id.drop pre2.length).length =
              some '?' := by
            rw [List.get?_append_right (le_refl _), Nat.sub_self]
            rfl
          have hq2 : foldersPat.get? (id.drop pre2.length).length = some '?' := by
            calc foldersPat.get? (id.drop pre2.length).length
                = (foldersPat ++ rest2).get? (id.drop pre2.length).length := hgetL.symm
              _ = (id.drop pre2.length ++ '?' :: s').get? (id.drop pre2.length).length := by
                  rw [hdrop]
              _ = some '?' := hgetR
          have hmem : '?' ∈ foldersPat := List.get?_mem hq2
          exact absurd hmem (by decide)
        · have hlpre : lpre foldersPat (id.drop pre2.length ++ '?' :: s') = true := by
            rw [hdrop]
            exact lpre_append_self foldersPat rest2
          have hocc : lpre foldersPat (id.drop pre2.length) = true :=
            lpre_of_append foldersPat (id.drop pre2.length) ('?' :: s') hlpre hm
          have hall := (splitFirst_eq_none_iff foldersPat id hpatne).mp hnone pre2.length
          rw [hall] at hocc
          exact Bool.noConfusion hocc

theorem claim_C10_witness :
    sharePre ++ foldersPat ++ "ABC123".toList ++ "?usp=sharing".toList =
      "https://drive.google.com/drive/folders/ABC123?usp=sharing".toList ∧
    containsSub foldersPat "ABC123".toList = false ∧
    '?' ∉ "ABC123".toList ∧
    resolveFolderArg (sharePre ++ foldersPat ++ "ABC123".toList ++ "?usp=sharing".toList) =
      "ABC123".toList ∧
    resolveFolderArg "ABC123".toList = "ABC123".toList := by
  have h := claim_C10 ("ABC123".toList) ("?usp=sharing".toList) (by decide) (by decide)
    (Or.inr ⟨"usp=sharing".toList, by decide⟩)
  exact ⟨by decide, by decide, by decide, h.1, h.2⟩
